import Mathlib

/-!
Shallow embedding of src/context_router.py (context-router core):
the hybrid logical clock (HLC), the bounded vector clock
(EfficientVectorClock) with its batch eviction, and the coordinating
ContextRouter, together with proofs and refutations of the specified
properties.

Modelling conventions:
* Python ints are Lean Int (arbitrary precision in both).
* Python dicts are association lists kept in insertion order (Python 3.7+
  dicts preserve insertion order): updating an existing key keeps its
  position, inserting a new key appends at the end, exactly as dicts do.
* time.monotonic_ns() is passed in explicitly as the sampled value.
* A raised exception is an explicit error value.  Values of a remote
  vector map are Option Int: some c is an int counter, none stands for a
  value whose comparison against an int raises TypeError at run time.
  The origin field of a remote hybrid tuple is Option Nat: some n is a
  string that UUID(...) accepts, none a string it rejects.
-/

/-- MAX_SKEW_NS = 5_000_000_000 (plus or minus 5 seconds). -/
def MAX_SKEW_NS : Int := 5000000000

/-- MAX_VECTOR_SIZE = 25 (the capacity threshold). -/
def MAX_VECTOR_SIZE : Nat := 25

/-- Python computes the prune batch as int(MAX_VECTOR_SIZE * 0.2) with the
prune ratio 0.2; in IEEE doubles 25 * 0.2 evaluates to exactly 5.0, so the
cutoff is the constant 5. -/
def PRUNE_CUTOFF : Nat := 5

/-- Node identifiers as Python dict keys: a UUID object or a raw string.
UUID(n) and its string form compare unequal as dict keys, so they are
distinct constructors here. -/
inductive Key where
  | uuid (n : Nat) : Key
  | str (n : Nat) : Key
deriving DecidableEq

/-- Hybrid logical clock value: physical nanoseconds, logical counter,
originating node id. -/
structure HLC where
  physical : Int
  logical : Int
  node_id : Key
deriving DecidableEq

/-- HLC.now: sample the physical source, logical 0. -/
def HLC.now (sampled : Int) (node_id : Key) : HLC :=
  ⟨sampled, 0, node_id⟩

/-- HLC.update from the source.  currentPhys is the freshly sampled
time.monotonic_ns(); the skew check raises ClockSkewError (the error
value) when exceeded.  The Python chained comparison
phys == self.physical == remote.physical is the conjunction of the two
adjacent equalities. -/
def HLC.update (self remote : HLC) (currentPhys : Int) : Except Unit HLC :=
  if MAX_SKEW_NS < |currentPhys - remote.physical| then
    Except.error ()
  else
    let phys := max currentPhys (max remote.physical self.physical)
    let lg :=
      if phys = self.physical ∧ self.physical = remote.physical then
        max self.logical remote.logical + 1
      else 0
    Except.ok ⟨phys, lg, self.node_id⟩

/-- The ordering the spec puts on timestamps: first by physical, then by
logical. -/
def hlcLt (a b : HLC) : Prop :=
  a.physical < b.physical ∨ (a.physical = b.physical ∧ a.logical < b.logical)

instance : DecidableRel hlcLt := fun a b =>
  inferInstanceAs (Decidable (a.physical < b.physical ∨
    (a.physical = b.physical ∧ a.logical < b.logical)))

/-- d.get(k, 0) on an insertion-ordered association list. -/
def lookupD : List (Key × Int) → Key → Int
  | [], _ => 0
  | (k', v) :: rest, k => if k' = k then v else lookupD rest k

/-- d[k] = v: replace in place when the key exists, else append at the
end, as an insertion-ordered dict does. -/
def setK : List (Key × Int) → Key → Int → List (Key × Int)
  | [], k, v => [(k, v)]
  | (k', v') :: rest, k, v =>
      if k' = k then (k, v) :: rest else (k', v') :: setK rest k v

/-- del d[k]: keys of a dict are unique, so deleting the first occurrence
is deletion. -/
def eraseK : List (Key × Int) → Key → List (Key × Int)
  | [], _ => []
  | (k', v') :: rest, k => if k' = k then rest else (k', v') :: eraseK rest k

/-- k in d. -/
def containsK : List (Key × Int) → Key → Bool
  | [], _ => false
  | (k', _) :: rest, k => if k' = k then true else containsK rest k

/-- The vector clock: owning node plus the counter map. -/
structure EfficientVectorClock where
  local_node : Key
  vector : List (Key × Int)
deriving DecidableEq

/-- increment: vector[local] = vector.get(local, 0) + 1. -/
def EfficientVectorClock.increment (vc : EfficientVectorClock) : EfficientVectorClock :=
  { vc with vector := setK vc.vector vc.local_node (lookupD vc.vector vc.local_node + 1) }

/-- The loop body of merge: visit the remote entries in iteration order;
an entry whose value is not an int (none) raises TypeError at the
comparison, so the flag goes false there and the list holds everything
mutated so far. -/
def mergeEntries : List (Key × Int) → List (Key × Option Int) → Bool × List (Key × Int)
  | vec, [] => (true, vec)
  | vec, (k, some c) :: rest =>
      mergeEntries (if lookupD vec k < c then setK vec k c else vec) rest
  | vec, (_, none) :: _ => (false, vec)

/-- Comparison used by sorted(items, key=value): ascending by counter.
Python Timsort is stable, as is insertion sort with this relation, so
both produce the identical ordering of tied entries. -/
def byCnt (p q : Key × Int) : Prop := p.2 ≤ q.2

instance : DecidableRel byCnt := fun p q =>
  inferInstanceAs (Decidable (p.2 ≤ q.2))

instance : IsTotal (Key × Int) byCnt := ⟨fun a b => le_total a.2 b.2⟩

instance : IsTrans (Key × Int) byCnt := ⟨fun _ _ _ h1 h2 => le_trans h1 h2⟩

/-- The prune loop: walk the entries sorted ascending by counter and
delete non-owner keys until the cutoff is reached. -/
def pruneLoop (owner : Key) : List (Key × Int) → List (Key × Int) → Nat → List (Key × Int)
  | [], vec, _ => vec
  | (k, _) :: rest, vec, pruned =>
      if PRUNE_CUTOFF ≤ pruned then vec
      else if k = owner then pruneLoop owner rest vec pruned
      else pruneLoop owner rest (eraseK vec k) (pruned + 1)

/-- EfficientVectorClock.prune. -/
def EfficientVectorClock.prune (vc : EfficientVectorClock) : EfficientVectorClock :=
  { vc with vector := pruneLoop vc.local_node (List.insertionSort byCnt vc.vector) vc.vector 0 }

/-- merge: element-wise maximum, then prune when above capacity.  The
Bool is false when a remote value raised mid-loop; then the size check
never runs and the partially mutated map is kept, exactly as the
exception unwinds out of the Python method. -/
def EfficientVectorClock.merge (vc : EfficientVectorClock) (other : List (Key × Option Int)) :
    Bool × EfficientVectorClock :=
  let r := mergeEntries vc.vector other
  if r.1 then
    let vc1 : EfficientVectorClock := { vc with vector := r.2 }
    (true, if MAX_VECTOR_SIZE < r.2.length then vc1.prune else vc1)
  else
    (false, { vc with vector := r.2 })

/-- A well-typed remote map (every value an int), as merge receives it
from a caller that respects the declared interface. -/
def intMap (m : List (Key × Int)) : List (Key × Option Int) :=
  m.map (fun p => (p.1, some p.2))

/-- The coordinator: one node id, one hybrid clock value, one vector
clock. -/
structure ContextRouter where
  node_id : Key
  hlc : HLC
  vc : EfficientVectorClock
deriving DecidableEq

/-- Construction: node id, hlc = HLC.now, vector clock with that owner
and an empty counter map. -/
def ContextRouter.init (sampled : Int) (node : Key) : ContextRouter :=
  ⟨node, HLC.now sampled node, ⟨node, []⟩⟩

/-- ingress_packet.  Only the origin string of the remote hybrid tuple
is parsed (Option Nat: none is a string UUID(...) rejects, covering the
malformed-tuple branch); remote vector keys are used verbatim.  The try
block turns any raised error into (false, state as mutated so far):
before the hlc assignment nothing has changed, while a TypeError inside
the vector merge leaves the already assigned hlc and the partially
merged vector behind. -/
def ContextRouter.ingress_packet (rt : ContextRouter) (currentPhys : Int)
    (remote_hlc_tuple : Int × Int × Option Nat)
    (remote_vc : List (Key × Option Int)) : Bool × ContextRouter :=
  match remote_hlc_tuple.2.2 with
  | none => (false, rt)
  | some n =>
    match rt.hlc.update ⟨remote_hlc_tuple.1, remote_hlc_tuple.2.1, Key.uuid n⟩ currentPhys with
    | Except.error _ => (false, rt)
    | Except.ok hlcNew =>
      match rt.vc.merge remote_vc with
      | (true, vcNew) => (true, { rt with hlc := hlcNew, vc := vcNew.increment })
      | (false, vcNew) => (false, { rt with hlc := hlcNew, vc := vcNew })

/-- One vector-clock operation: a local increment or a merge of a
well-typed remote map. -/
inductive VCOp where
  | inc : VCOp
  | mrg (m : List (Key × Int)) : VCOp

/-- Apply one operation. -/
def applyOp (vc : EfficientVectorClock) : VCOp → EfficientVectorClock
  | VCOp.inc => vc.increment
  | VCOp.mrg m => (vc.merge (intMap m)).2

/-- Apply a sequence of operations, oldest first. -/
def applyOps (vc : EfficientVectorClock) (ops : List VCOp) : EfficientVectorClock :=
  ops.foldl applyOp vc

/-- Keys of the map are pairwise distinct (always true of a Python
dict). -/
def keyNodup (l : List (Key × Int)) : Prop := (l.map Prod.fst).Nodup

/-- Two association lists represent the same Python dict value: same
membership and the same looked-up counters. -/
def sameMap (u v : List (Key × Int)) : Prop :=
  ∀ k, containsK u k = containsK v k ∧ lookupD u k = lookupD v k

/-- The maximum counter a key carries in a remote map, none when the key
is absent. -/
def maxOf : List (Key × Int) → Key → Option Int
  | [], _ => none
  | (k', c) :: rest, k =>
      if k' = k then
        match maxOf rest k with
        | none => some c
        | some a => some (max c a)
      else maxOf rest k

/-- Erase a batch of keys, left to right. -/
def removeKeys (vec : List (Key × Int)) (ks : List Key) : List (Key × Int) :=
  ks.foldl eraseK vec

/-! ### Association-list lemmas -/

theorem lookupD_setK_self (l : List (Key × Int)) (k : Key) (v : Int) :
    lookupD (setK l k v) k = v := by
  induction l with
  | nil => simp [setK, lookupD]
  | cons p rest ih =>
    obtain ⟨k0, v0⟩ := p
    by_cases h : k0 = k
    · simp [setK, h, lookupD]
    · simp [setK, h, lookupD, ih]

theorem lookupD_setK_ne (l : List (Key × Int)) (k k' : Key) (v : Int) (h : k' ≠ k) :
    lookupD (setK l k v) k' = lookupD l k' := by
  have h' : ¬ (k = k') := Ne.symm h
  induction l with
  | nil => simp [setK, lookupD, h']
  | cons p rest ih =>
    obtain ⟨k0, v0⟩ := p
    by_cases hk : k0 = k
    · subst hk
      simp [setK, lookupD, h']
    · simp only [setK, if_neg hk, lookupD]
      by_cases hk' : k0 = k'
      · simp [hk']
      · simp [hk', ih]

theorem containsK_setK_self (l : List (Key × Int)) (k : Key) (v : Int) :
    containsK (setK l k v) k = true := by
  induction l with
  | nil => simp [setK, containsK]
  | cons p rest ih =>
    obtain ⟨k0, v0⟩ := p
    by_cases h : k0 = k
    · simp [setK, h, containsK]
    · simp [setK, h, containsK, ih]

theorem containsK_setK_ne (l : List (Key × Int)) (k k' : Key) (v : Int) (h : k' ≠ k) :
    containsK (setK l k v) k' = containsK l k' := by
  have h' : ¬ (k = k') := Ne.symm h
  induction l with
  | nil => simp [setK, containsK, h']
  | cons p rest ih =>
    obtain ⟨k0, v0⟩ := p
    by_cases hk : k0 = k
    · subst hk
      simp [setK, containsK, h']
    · simp only [setK, if_neg hk, containsK]
      by_cases hk' : k0 = k'
      · simp [hk']
      · simp [hk', ih]

theorem lookupD_eraseK_ne (l : List (Key × Int)) (k k' : Key) (h : k' ≠ k) :
    lookupD (eraseK l k) k' = lookupD l k' := by
  have h' : ¬ (k = k') := Ne.symm h
  induction l with
  | nil => simp [eraseK]
  | cons p rest ih =>
    obtain ⟨k0, v0⟩ := p
    by_cases hk : k0 = k
    · subst hk
      simp [eraseK, lookupD, h']
    · simp only [eraseK, if_neg hk, lookupD]
      by_cases hk' : k0 = k'
      · simp [hk']
      · simp [hk', ih]

theorem containsK_eraseK_ne (l : List (Key × Int)) (k k' : Key) (h : k' ≠ k) :
    containsK (eraseK l k) k' = containsK l k' := by
  have h' : ¬ (k = k') := Ne.symm h
  induction l with
  | nil => simp [eraseK]
  | cons p rest ih =>
    obtain ⟨k0, v0⟩ := p
    by_cases hk : k0 = k
    · subst hk
      simp [eraseK, containsK, h']
    · simp only [eraseK, if_neg hk, containsK]
      by_cases hk' : k0 = k'
      · simp [hk']
      · simp [hk', ih]

theorem length_setK_le (l : List (Key × Int)) (k : Key) (v : Int) :
    (setK l k v).length ≤ l.length + 1 := by
  induction l with
  | nil => simp [setK]
  | cons p rest ih =>
    obtain ⟨k0, v0⟩ := p
    by_cases h : k0 = k
    · simp [setK, h]
    · simp only [setK, if_neg h, List.length_cons]
      omega

theorem containsK_iff_mem (l : List (Key × Int)) (k : Key) :
    containsK l k = true ↔ k ∈ l.map Prod.fst := by
  induction l with
  | nil => simp [containsK]
  | cons p rest ih =>
    obtain ⟨k0, v0⟩ := p
    by_cases h : k0 = k
    · simp [containsK, h]
    · simp [containsK, h, ih, Ne.symm h]

theorem length_setK_of_contains (l : List (Key × Int)) (k : Key) (v : Int)
    (h : containsK l k = true) : (setK l k v).length = l.length := by
  induction l with
  | nil => simp [containsK] at h
  | cons p rest ih =>
    obtain ⟨k0, v0⟩ := p
    by_cases hk : k0 = k
    · simp [setK, hk]
    · simp only [containsK, if_neg hk] at h
      simp [setK, hk, ih h]

theorem length_eraseK_of_contains (l : List (Key × Int)) (k : Key)
    (h : containsK l k = true) : (eraseK l k).length + 1 = l.length := by
  induction l with
  | nil => simp [containsK] at h
  | cons p rest ih =>
    obtain ⟨k0, v0⟩ := p
    by_cases hk : k0 = k
    · simp [eraseK, hk]
    · simp only [containsK, if_neg hk] at h
      simp only [eraseK, if_neg hk, List.length_cons]
      have := ih h
      omega

theorem keyNodup_setK (l : List (Key × Int)) (k : Key) (v : Int)
    (h : keyNodup l) : keyNodup (setK l k v) := by
  induction l with
  | nil => simp [keyNodup, setK]
  | cons p rest ih =>
    obtain ⟨k0, v0⟩ := p
    simp only [keyNodup, List.map_cons, List.nodup_cons] at h
    by_cases hk : k0 = k
    · subst hk
      simpa [keyNodup, setK] using h
    · have hrest := ih h.2
      simp only [setK, if_neg hk, keyNodup, List.map_cons, List.nodup_cons]
      refine ⟨?_, hrest⟩
      intro hmem
      rcases h with ⟨hnot, hnd⟩
      have : containsK (setK rest k v) k0 = true := (containsK_iff_mem _ _).2 hmem
      rw [containsK_setK_ne rest k k0 v hk] at this
      exact hnot ((containsK_iff_mem rest k0).1 this)

theorem mem_entry_of_containsK (l : List (Key × Int)) (k : Key)
    (h : containsK l k = true) : (k, lookupD l k) ∈ l := by
  induction l with
  | nil => simp [containsK] at h
  | cons p rest ih =>
    obtain ⟨k0, v0⟩ := p
    by_cases hk : k0 = k
    · subst hk
      simp [lookupD]
    · simp only [containsK, if_neg hk] at h
      simp only [lookupD, if_neg hk]
      exact List.mem_cons_of_mem _ (ih h)

theorem lookupD_eq_of_mem_nodup (l : List (Key × Int)) (k : Key) (v : Int)
    (hm : (k, v) ∈ l) (hnd : keyNodup l) : lookupD l k = v := by
  induction l with
  | nil => simp at hm
  | cons p rest ih =>
    obtain ⟨k0, v0⟩ := p
    simp only [keyNodup, List.map_cons, List.nodup_cons] at hnd
    rcases List.mem_cons.1 hm with he | hrest
    · have hk : k0 = k := by cases he; rfl
      have hv : v0 = v := by cases he; rfl
      subst hk; subst hv
      simp [lookupD]
    · by_cases hk : k0 = k
      · exfalso
        subst hk
        exact hnd.1 (List.mem_map.2 ⟨(k0, v), hrest, rfl⟩)
      · simp only [lookupD, if_neg hk]
        exact ih hrest hnd.2

/-! ### mergeEntries lemmas -/

theorem mergeEntries_intMap_fst (m : List (Key × Int)) :
    ∀ vec : List (Key × Int), (mergeEntries vec (intMap m)).1 = true := by
  induction m with
  | nil => intro vec; simp [intMap, mergeEntries]
  | cons p rest ih =>
    intro vec
    obtain ⟨k, c⟩ := p
    simp only [intMap, List.map_cons, mergeEntries]
    exact ih _

theorem mergeEntries_length_le (m : List (Key × Int)) :
    ∀ vec : List (Key × Int),
      (mergeEntries vec (intMap m)).2.length ≤ vec.length + m.length := by
  induction m with
  | nil => intro vec; simp [intMap, mergeEntries]
  | cons p rest ih =>
    intro vec
    obtain ⟨k, c⟩ := p
    simp only [intMap, List.map_cons, mergeEntries, List.length_cons]
    by_cases h : lookupD vec k < c
    · rw [if_pos h]
      have h1 := ih (setK vec k c)
      have h2 := length_setK_le vec k c
      simp only [intMap] at h1
      omega
    · rw [if_neg h]
      have h1 := ih vec
      simp only [intMap] at h1
      omega

theorem lookupD_mergeEntries_mono (es : List (Key × Option Int)) :
    ∀ (vec : List (Key × Int)) (k : Key),
      lookupD vec k ≤ lookupD (mergeEntries vec es).2 k := by
  induction es with
  | nil => intro vec k; simp [mergeEntries]
  | cons p rest ih =>
    intro vec k
    obtain ⟨k0, c0?⟩ := p
    cases c0? with
    | none => simp [mergeEntries]
    | some c0 =>
      simp only [mergeEntries]
      by_cases h : lookupD vec k0 < c0
      · rw [if_pos h]
        have h2 := ih (setK vec k0 c0) k
        by_cases hk : k = k0
        · subst hk
          rw [lookupD_setK_self] at h2
          omega
        · rwa [lookupD_setK_ne vec k0 k c0 hk] at h2
      · rw [if_neg h]
        exact ih vec k

theorem containsK_mergeEntries_mono (es : List (Key × Option Int)) :
    ∀ (vec : List (Key × Int)) (k : Key),
      containsK vec k = true → containsK (mergeEntries vec es).2 k = true := by
  induction es with
  | nil => intro vec k h; simpa [mergeEntries] using h
  | cons p rest ih =>
    intro vec k h
    obtain ⟨k0, c0?⟩ := p
    cases c0? with
    | none => simpa [mergeEntries] using h
    | some c0 =>
      simp only [mergeEntries]
      by_cases hlt : lookupD vec k0 < c0
      · rw [if_pos hlt]
        refine ih _ _ ?_
        by_cases hk : k = k0
        · subst hk; exact containsK_setK_self vec k c0
        · rwa [containsK_setK_ne vec k0 k c0 hk]
      · rw [if_neg hlt]
        exact ih vec k h

theorem lookupD_mergeEntries_intMap (m : List (Key × Int)) :
    ∀ (vec : List (Key × Int)) (k : Key),
      lookupD (mergeEntries vec (intMap m)).2 k =
        match maxOf m k with
        | none => lookupD vec k
        | some a => max (lookupD vec k) a := by
  induction m with
  | nil => intro vec k; simp [intMap, mergeEntries, maxOf]
  | cons p rest ih =>
    intro vec k
    obtain ⟨k0, c0⟩ := p
    simp only [intMap, List.map_cons, mergeEntries, maxOf]
    by_cases hk : k0 = k
    · subst hk
      have hstep : lookupD (if lookupD vec k0 < c0 then setK vec k0 c0 else vec) k0 =
          max (lookupD vec k0) c0 := by
        by_cases h : lookupD vec k0 < c0
        · rw [if_pos h, lookupD_setK_self]
          omega
        · rw [if_neg h]
          omega
      rw [if_pos rfl]
      have ihv := ih (if lookupD vec k0 < c0 then setK vec k0 c0 else vec) k0
      simp only [intMap] at ihv
      rw [ihv, hstep]
      cases hmo : maxOf rest k0 with
      | none => simp
      | some a => simp [max_assoc, max_comm c0 a]
  -- the ne case
    · rw [if_neg hk]
      have hstep : lookupD (if lookupD vec k0 < c0 then setK vec k0 c0 else vec) k =
          lookupD vec k := by
        by_cases h : lookupD vec k0 < c0
        · rw [if_pos h, lookupD_setK_ne vec k0 k c0 (fun hh => hk hh.symm)]
        · rw [if_neg h]
      have ihv := ih (if lookupD vec k0 < c0 then setK vec k0 c0 else vec) k
      simp only [intMap] at ihv
      rw [ihv, hstep]

theorem containsK_mergeEntries_intMap (m : List (Key × Int)) :
    ∀ (vec : List (Key × Int)) (k : Key),
      containsK (mergeEntries vec (intMap m)).2 k =
        (containsK vec k ||
          match maxOf m k with
          | none => false
          | some a => decide (lookupD vec k < a)) := by
  induction m with
  | nil => intro vec k; simp [intMap, mergeEntries, maxOf]
  | cons p rest ih =>
    intro vec k
    obtain ⟨k0, c0⟩ := p
    simp only [intMap, List.map_cons, mergeEntries, maxOf]
    by_cases hk : k0 = k
    · subst hk
      rw [if_pos rfl]
      have ihv := ih (if lookupD vec k0 < c0 then setK vec k0 c0 else vec) k0
      simp only [intMap] at ihv
      rw [ihv]
      have hlook : lookupD (if lookupD vec k0 < c0 then setK vec k0 c0 else vec) k0 =
          max (lookupD vec k0) c0 := by
        by_cases h : lookupD vec k0 < c0
        · rw [if_pos h, lookupD_setK_self]; omega
        · rw [if_neg h]; omega
      have hcont : containsK (if lookupD vec k0 < c0 then setK vec k0 c0 else vec) k0 =
          (containsK vec k0 || decide (lookupD vec k0 < c0)) := by
        by_cases h : lookupD vec k0 < c0
        · simp [if_pos h, containsK_setK_self, h]
        · simp [if_neg h, h]
      rw [hlook, hcont]
      cases hmo : maxOf rest k0 with
      | none =>
        simp
      | some a =>
        simp only [Bool.or_assoc]
        congr 1
        rcases le_or_lt c0 (lookupD vec k0) with h1 | h1
        · have : max (lookupD vec k0) c0 = lookupD vec k0 := by omega
          rw [this]
          have h2 : ¬ (lookupD vec k0 < c0) := by omega
          by_cases h3 : lookupD vec k0 < a
          · have h4 : lookupD vec k0 < max c0 a := by omega
            simp [h2, h3, h4]
          · have h4 : ¬ (lookupD vec k0 < max c0 a) := by omega
            simp [h2, h3, h4]
        · have h2 : lookupD vec k0 < c0 := h1
          have h3 : lookupD vec k0 < max c0 a := by omega
          simp [h2, h3]
    · rw [if_neg hk]
      have ihv := ih (if lookupD vec k0 < c0 then setK vec k0 c0 else vec) k
      simp only [intMap] at ihv
      rw [ihv]
      have hlook : lookupD (if lookupD vec k0 < c0 then setK vec k0 c0 else vec) k =
          lookupD vec k := by
        by_cases h : lookupD vec k0 < c0
        · rw [if_pos h, lookupD_setK_ne vec k0 k c0 (fun hh => hk hh.symm)]
        · rw [if_neg h]
      have hcont : containsK (if lookupD vec k0 < c0 then setK vec k0 c0 else vec) k =
          containsK vec k := by
        by_cases h : lookupD vec k0 < c0
        · rw [if_pos h, containsK_setK_ne vec k0 k c0 (fun hh => hk hh.symm)]
        · rw [if_neg h]
      rw [hlook, hcont]

theorem mergeEntries_noop (m : List (Key × Int)) :
    ∀ vec : List (Key × Int), (∀ p ∈ m, p.2 ≤ lookupD vec p.1) →
      mergeEntries vec (intMap m) = (true, vec) := by
  induction m with
  | nil => intro vec _; simp [intMap, mergeEntries]
  | cons p rest ih =>
    intro vec hall
    obtain ⟨k, c⟩ := p
    have hc : c ≤ lookupD vec k := hall (k, c) (List.mem_cons_self _ _)
    simp only [intMap, List.map_cons, mergeEntries]
    rw [if_neg (by omega)]
    exact ih vec (fun q hq => hall q (List.mem_cons_of_mem _ hq))

theorem le_lookupD_mergeEntries_of_mem (m : List (Key × Int)) :
    ∀ (vec : List (Key × Int)) (k : Key) (c : Int), (k, c) ∈ m →
      c ≤ lookupD (mergeEntries vec (intMap m)).2 k := by
  induction m with
  | nil => intro vec k c h; simp at h
  | cons p rest ih =>
    intro vec k c hm
    obtain ⟨k0, c0⟩ := p
    rcases List.mem_cons.1 hm with he | hrest
    · cases he
      simp only [intMap, List.map_cons, mergeEntries]
      have hstep : c ≤ lookupD (if lookupD vec k < c then setK vec k c else vec) k := by
        by_cases h : lookupD vec k < c
        · rw [if_pos h, lookupD_setK_self]
        · rw [if_neg h]; omega
      calc c ≤ lookupD (if lookupD vec k < c then setK vec k c else vec) k := hstep
        _ ≤ _ := lookupD_mergeEntries_mono (intMap rest) _ k
    · simp only [intMap, List.map_cons, mergeEntries]
      exact ih _ k c hrest

theorem keyNodup_mergeEntries (es : List (Key × Option Int)) :
    ∀ vec : List (Key × Int), keyNodup vec → keyNodup (mergeEntries vec es).2 := by
  induction es with
  | nil => intro vec h; simpa [mergeEntries] using h
  | cons p rest ih =>
    intro vec h
    obtain ⟨k0, c0?⟩ := p
    cases c0? with
    | none => simpa [mergeEntries] using h
    | some c0 =>
      simp only [mergeEntries]
      by_cases hlt : lookupD vec k0 < c0
      · rw [if_pos hlt]
        exact ih _ (keyNodup_setK vec k0 c0 h)
      · rw [if_neg hlt]
        exact ih vec h

/-! ### pruneLoop lemmas -/

theorem lookupD_pruneLoop_owner (owner : Key) (s : List (Key × Int)) :
    ∀ (vec : List (Key × Int)) (p : Nat),
      lookupD (pruneLoop owner s vec p) owner = lookupD vec owner := by
  induction s with
  | nil => intro vec p; simp [pruneLoop]
  | cons q rest ih =>
    intro vec p
    obtain ⟨k, v⟩ := q
    simp only [pruneLoop]
    by_cases h1 : PRUNE_CUTOFF ≤ p
    · rw [if_pos h1]
    · rw [if_neg h1]
      by_cases h2 : k = owner
      · rw [if_pos h2]
        exact ih vec p
      · rw [if_neg h2]
        rw [ih _ _, lookupD_eraseK_ne vec k owner (fun hh => h2 hh.symm)]

theorem containsK_pruneLoop_owner (owner : Key) (s : List (Key × Int)) :
    ∀ (vec : List (Key × Int)) (p : Nat),
      containsK (pruneLoop owner s vec p) owner = containsK vec owner := by
  induction s with
  | nil => intro vec p; simp [pruneLoop]
  | cons q rest ih =>
    intro vec p
    obtain ⟨k, v⟩ := q
    simp only [pruneLoop]
    by_cases h1 : PRUNE_CUTOFF ≤ p
    · rw [if_pos h1]
    · rw [if_neg h1]
      by_cases h2 : k = owner
      · rw [if_pos h2]
        exact ih vec p
      · rw [if_neg h2]
        rw [ih _ _, containsK_eraseK_ne vec k owner (fun hh => h2 hh.symm)]

/-! ### merge-level wrappers -/

theorem merge_intMap_fst (vc : EfficientVectorClock) (m : List (Key × Int)) :
    (vc.merge (intMap m)).1 = true := by
  simp only [EfficientVectorClock.merge]
  rw [mergeEntries_intMap_fst m vc.vector]
  simp

theorem merge_local_node (vc : EfficientVectorClock) (other : List (Key × Option Int)) :
    (vc.merge other).2.local_node = vc.local_node := by
  simp only [EfficientVectorClock.merge]
  by_cases h : (mergeEntries vc.vector other).1
  · simp only [h, if_pos]
    by_cases h2 : MAX_VECTOR_SIZE < (mergeEntries vc.vector other).2.length
    · simp [h2, EfficientVectorClock.prune]
    · simp [h2]
  · simp [h]

theorem increment_local_node (vc : EfficientVectorClock) :
    vc.increment.local_node = vc.local_node := rfl

theorem merge_intMap_vector (vc : EfficientVectorClock) (m : List (Key × Int)) :
    (vc.merge (intMap m)).2.vector =
      if MAX_VECTOR_SIZE < (mergeEntries vc.vector (intMap m)).2.length then
        pruneLoop vc.local_node
          (List.insertionSort byCnt (mergeEntries vc.vector (intMap m)).2)
          (mergeEntries vc.vector (intMap m)).2 0
      else (mergeEntries vc.vector (intMap m)).2 := by
  simp only [EfficientVectorClock.merge]
  rw [mergeEntries_intMap_fst m vc.vector]
  by_cases h2 : MAX_VECTOR_SIZE < (mergeEntries vc.vector (intMap m)).2.length
  · simp [h2, EfficientVectorClock.prune]
  · simp [h2]

theorem merge_intMap_no_prune (vc : EfficientVectorClock) (m : List (Key × Int))
    (h : (mergeEntries vc.vector (intMap m)).2.length ≤ MAX_VECTOR_SIZE) :
    (vc.merge (intMap m)).2 = { vc with vector := (mergeEntries vc.vector (intMap m)).2 } := by
  simp only [EfficientVectorClock.merge]
  rw [mergeEntries_intMap_fst m vc.vector]
  simp [Nat.not_lt.2 h]

/-! ### Claims about HLC.update -/

/-- C4: when the sampled now is within MAX_SKEW_NS of remote.physical,
HLC.update succeeds; the result's physical is the three-way maximum, its
logical is max(local.logical, remote.logical) + 1 exactly when that
physical equals both inputs' physical values and 0 otherwise, and its
origin is the local node. -/
theorem hlc_update_success_characterization (l r : HLC) (now : Int)
    (h : |now - r.physical| ≤ MAX_SKEW_NS) :
    HLC.update l r now = Except.ok
      ⟨max now (max r.physical l.physical),
       if max now (max r.physical l.physical) = l.physical ∧
          max now (max r.physical l.physical) = r.physical then
         max l.logical r.logical + 1
       else 0,
       l.node_id⟩ := by
  unfold HLC.update
  rw [if_neg (not_lt.2 h)]
  have hiff : (max now (max r.physical l.physical) = l.physical ∧
      l.physical = r.physical) ↔
      (max now (max r.physical l.physical) = l.physical ∧
       max now (max r.physical l.physical) = r.physical) := by
    constructor
    · rintro ⟨h1, h2⟩; exact ⟨h1, h1.trans h2⟩
    · rintro ⟨h1, h2⟩; exact ⟨h1, h1.symm.trans h2⟩
  simp only [hiff]

/-- Witness for C4, on the spec scenario: local (1000, 0), remote
(1000, 2), now forced to 1000 gives (1000, 3). -/
theorem hlc_update_success_characterization_witness :
    |1000 - (1000 : Int)| ≤ MAX_SKEW_NS ∧
    HLC.update ⟨1000, 0, Key.uuid 0⟩ ⟨1000, 2, Key.uuid 1⟩ 1000 =
      Except.ok ⟨1000, 3, Key.uuid 0⟩ := by
  constructor
  · decide
  · rw [hlc_update_success_characterization ⟨1000, 0, Key.uuid 0⟩ ⟨1000, 2, Key.uuid 1⟩ 1000
      (by decide)]
    rfl

/-- C5: update raises ClockSkewError exactly when the absolute difference
between the freshly sampled time and remote.physical exceeds MAX_SKEW_NS,
and on that branch the router keeps its local timestamp (and all other
state) untouched: the rejection is a no-op. -/
theorem hlc_update_skew_iff (l r : HLC) (now : Int) (rt : ContextRouter)
    (p lg : Int) (n : Nat) (rvc : List (Key × Option Int)) :
    (HLC.update l r now = Except.error () ↔ MAX_SKEW_NS < |now - r.physical|)
    ∧ (MAX_SKEW_NS < |now - p| →
        rt.ingress_packet now (p, lg, some n) rvc = (false, rt)) := by
  constructor
  · unfold HLC.update
    by_cases h : MAX_SKEW_NS < |now - r.physical|
    · simp [h]
    · simp [h]
  · intro hs
    have hup : rt.hlc.update ⟨p, lg, Key.uuid n⟩ now = Except.error () := by
      unfold HLC.update
      exact if_pos hs
    simp only [ContextRouter.ingress_packet, hup]

/-- Witness for C5, on the spec scenario: remote physical a full skew
bound plus one nanosecond ahead of the sampled now is rejected and the
router state is returned unchanged. -/
theorem hlc_update_skew_iff_witness :
    MAX_SKEW_NS < |1000 - (1000 + MAX_SKEW_NS + 1)| ∧
    (ContextRouter.init 1000 (Key.uuid 0)).ingress_packet 1000
        (1000 + MAX_SKEW_NS + 1, 0, some 1) [] =
      (false, ContextRouter.init 1000 (Key.uuid 0)) := by
  constructor
  · decide
  · exact (hlc_update_skew_iff ⟨1000, 0, Key.uuid 0⟩ ⟨1000, 0, Key.uuid 1⟩ 1000
      (ContextRouter.init 1000 (Key.uuid 0)) (1000 + MAX_SKEW_NS + 1) 0 1 []).2 (by decide)

set_option maxRecDepth 8000 in
/-- C1 (code bug): with the sampled now inside the skew bound, merging
remote (999, 0) into local (1000, 5) at now = 1000 succeeds and returns
(1000, 0): the resulting physical equals the local physical but not the
remote one, so the code resets logical to 0 and the produced timestamp is
lexicographically BELOW the local input.  The causal-order monotonicity
the spec states does not hold of the code. -/
theorem hlc_update_monotonicity_violation :
    |1000 - (999 : Int)| ≤ MAX_SKEW_NS
    ∧ HLC.update ⟨1000, 5, Key.uuid 0⟩ ⟨999, 0, Key.uuid 1⟩ 1000 =
        Except.ok ⟨1000, 0, Key.uuid 0⟩
    ∧ hlcLt ⟨1000, 0, Key.uuid 0⟩ ⟨1000, 5, Key.uuid 0⟩ := by
  refine ⟨by decide, by rfl, by decide⟩

set_option maxRecDepth 8000 in
/-- C2 counterexample: a TypeError raised on the second remote vector
entry makes ingress_packet return false, yet the hybrid clock has
already been replaced and the first remote entry is already merged: the
post-call state differs from the pre-call state. -/
theorem ingress_partial_mutation_counterexample :
    ((ContextRouter.init 100 (Key.uuid 0)).ingress_packet 100 (100, 0, some 1)
        [(Key.uuid 5, some 7), (Key.uuid 6, none)]).1 = false
    ∧ ((ContextRouter.init 100 (Key.uuid 0)).ingress_packet 100 (100, 0, some 1)
        [(Key.uuid 5, some 7), (Key.uuid 6, none)]).2 ≠ ContextRouter.init 100 (Key.uuid 0)
    ∧ ((ContextRouter.init 100 (Key.uuid 0)).ingress_packet 100 (100, 0, some 1)
        [(Key.uuid 5, some 7), (Key.uuid 6, none)]).2.vc.vector = [(Key.uuid 5, 7)]
    ∧ ((ContextRouter.init 100 (Key.uuid 0)).ingress_packet 100 (100, 0, some 1)
        [(Key.uuid 5, some 7), (Key.uuid 6, none)]).2.hlc =
        ⟨100, 1, Key.uuid 0⟩ := by
  refine ⟨by decide, by decide, by decide, by decide⟩

/-- C2 (amended): ingress_packet converts every failure into a false
return without propagating anything; a malformed origin string or a
clock-skew rejection occurs before any state change, so the router is
returned exactly as it was.  (A failure raised mid-way through the
vector merge instead keeps the updated hybrid clock and the partially
merged vector, per the counterexample.) -/
theorem ingress_reject_before_merge_no_mutation (rt : ContextRouter)
    (now p lg : Int) (n : Nat) (rvc : List (Key × Option Int)) :
    rt.ingress_packet now (p, lg, none) rvc = (false, rt)
    ∧ (MAX_SKEW_NS < |now - p| →
        rt.ingress_packet now (p, lg, some n) rvc = (false, rt)) := by
  constructor
  · rfl
  · intro hs
    have hup : rt.hlc.update ⟨p, lg, Key.uuid n⟩ now = Except.error () := by
      unfold HLC.update
      exact if_pos hs
    simp only [ContextRouter.ingress_packet, hup]

/-- Witness for the amended C2: a malformed origin and a skewed remote
both come back as (false, unchanged router). -/
theorem ingress_reject_before_merge_no_mutation_witness :
    (ContextRouter.init 7 (Key.uuid 0)).ingress_packet 7 (7, 0, none)
        [(Key.uuid 5, some 7)] = (false, ContextRouter.init 7 (Key.uuid 0))
    ∧ MAX_SKEW_NS < |7 - (MAX_SKEW_NS + 8)|
    ∧ (ContextRouter.init 7 (Key.uuid 0)).ingress_packet 7 (MAX_SKEW_NS + 8, 0, some 1)
        [(Key.uuid 5, some 7)] = (false, ContextRouter.init 7 (Key.uuid 0)) := by
  refine ⟨(ingress_reject_before_merge_no_mutation (ContextRouter.init 7 (Key.uuid 0))
      7 7 0 1 [(Key.uuid 5, some 7)]).1, by decide, ?_⟩
  exact (ingress_reject_before_merge_no_mutation (ContextRouter.init 7 (Key.uuid 0))
      7 (MAX_SKEW_NS + 8) 0 1 [(Key.uuid 5, some 7)]).2 (by decide)

/-! ### Owner-counter lemmas over operation sequences -/

theorem applyOp_local_node (vc : EfficientVectorClock) (op : VCOp) :
    (applyOp vc op).local_node = vc.local_node := by
  cases op with
  | inc => rfl
  | mrg m => exact merge_local_node vc (intMap m)

theorem applyOp_owner_mono (vc : EfficientVectorClock) (op : VCOp) :
    lookupD vc.vector vc.local_node ≤ lookupD (applyOp vc op).vector vc.local_node := by
  cases op with
  | inc =>
    simp only [applyOp, EfficientVectorClock.increment]
    rw [lookupD_setK_self]
    omega
  | mrg m =>
    simp only [applyOp]
    rw [merge_intMap_vector]
    by_cases h : MAX_VECTOR_SIZE < (mergeEntries vc.vector (intMap m)).2.length
    · rw [if_pos h, lookupD_pruneLoop_owner]
      exact lookupD_mergeEntries_mono (intMap m) vc.vector vc.local_node
    · rw [if_neg h]
      exact lookupD_mergeEntries_mono (intMap m) vc.vector vc.local_node

theorem applyOps_local_node (ops : List VCOp) :
    ∀ vc : EfficientVectorClock, (applyOps vc ops).local_node = vc.local_node := by
  induction ops with
  | nil => intro vc; rfl
  | cons op rest ih =>
    intro vc
    exact (ih (applyOp vc op)).trans (applyOp_local_node vc op)

theorem applyOps_owner_mono (ops : List VCOp) :
    ∀ vc : EfficientVectorClock,
      lookupD vc.vector vc.local_node ≤ lookupD (applyOps vc ops).vector vc.local_node := by
  induction ops with
  | nil => intro vc; exact le_refl _
  | cons op rest ih =>
    intro vc
    have h1 := applyOp_owner_mono vc op
    have h2 := ih (applyOp vc op)
    rw [applyOp_local_node vc op] at h2
    exact le_trans h1 h2

/-- C9: across any sequence of increments and merges (and the pruning a
merge may run), the owner's counter never decreases and the owning node
never changes; a single increment adds exactly one (so an absent owner
goes to 1); and three increments from the empty map yield exactly
the map with the single entry (owner, 3). -/
theorem vc_owner_counter_monotone (vc : EfficientVectorClock) (ops : List VCOp) :
    lookupD vc.vector vc.local_node ≤ lookupD (applyOps vc ops).vector vc.local_node
    ∧ (applyOps vc ops).local_node = vc.local_node
    ∧ lookupD vc.increment.vector vc.local_node = lookupD vc.vector vc.local_node + 1
    ∧ applyOps ⟨Key.uuid 1, []⟩ [VCOp.inc, VCOp.inc, VCOp.inc] =
        ⟨Key.uuid 1, [(Key.uuid 1, 3)]⟩ := by
  refine ⟨applyOps_owner_mono ops vc, applyOps_local_node ops vc, ?_, by decide⟩
  simp only [EfficientVectorClock.increment]
  rw [lookupD_setK_self]

theorem applyOp_owner_contains (vc : EfficientVectorClock) (op : VCOp)
    (h : containsK vc.vector vc.local_node = true) :
    containsK (applyOp vc op).vector vc.local_node = true := by
  cases op with
  | inc =>
    simp only [applyOp, EfficientVectorClock.increment]
    exact containsK_setK_self _ _ _
  | mrg m =>
    simp only [applyOp]
    rw [merge_intMap_vector]
    by_cases hp : MAX_VECTOR_SIZE < (mergeEntries vc.vector (intMap m)).2.length
    · rw [if_pos hp, containsK_pruneLoop_owner]
      exact containsK_mergeEntries_mono (intMap m) vc.vector vc.local_node h
    · rw [if_neg hp]
      exact containsK_mergeEntries_mono (intMap m) vc.vector vc.local_node h

set_option maxRecDepth 8000 in
/-- C3 counterexample: merging a 31-entry remote map into a fresh vector
clock leaves 26 entries after the eviction pass, which is above
MAX_VECTOR_SIZE = 25: the claimed at-most-25 bound fails. -/
theorem vc_size_bound_counterexample :
    ((EfficientVectorClock.merge ⟨Key.uuid 0, []⟩
        (intMap ((List.range 31).map
          (fun i => (Key.uuid (i + 1), (i : Int) + 1))))).2.vector.length) = 26
    ∧ MAX_VECTOR_SIZE < 26 := by
  refine ⟨by rfl, by decide⟩

/-- C3 (amended): across every sequence of increment and merge
operations the owner's own entry, once present, is never removed (the
prune pass skips it unconditionally and merge never deletes); the map
size, however, may exceed MAX_VECTOR_SIZE, per the counterexample. -/
theorem vc_owner_never_evicted (vc : EfficientVectorClock) (ops : List VCOp)
    (h : containsK vc.vector vc.local_node = true) :
    containsK (applyOps vc ops).vector vc.local_node = true := by
  induction ops generalizing vc with
  | nil => exact h
  | cons op rest ih =>
    have h1 := applyOp_owner_contains vc op h
    have h2 := ih (applyOp vc op) (by rwa [applyOp_local_node vc op])
    rw [applyOp_local_node vc op] at h2
    exact h2

/-- Witness for the amended C3: a merge that triggers no pruning plus an
increment keep the owner entry present. -/
theorem vc_owner_never_evicted_witness :
    containsK [(Key.uuid 0, 2)] (Key.uuid 0) = true
    ∧ containsK (applyOps ⟨Key.uuid 0, [(Key.uuid 0, 2)]⟩
        [VCOp.mrg [(Key.uuid 1, 3)], VCOp.inc]).vector (Key.uuid 0) = true := by
  refine ⟨by decide, ?_⟩
  exact vc_owner_never_evicted ⟨Key.uuid 0, [(Key.uuid 0, 2)]⟩
    [VCOp.mrg [(Key.uuid 1, 3)], VCOp.inc] (by decide)

set_option maxRecDepth 8000 in
/-- C7 counterexample: merging the same 26-entry all-ones map twice is
not the same as merging it once.  The first merge evicts nodes 1..5; the
second merge re-inserts them (their keys are gone, so value 1 beats the
absent default 0) and the pruning pass, stable-sorting ties by insertion
order, now evicts five of the previously kept nodes instead: node 1 is
absent after one merge but present after two. -/
theorem vc_merge_idempotence_counterexample :
    containsK ((EfficientVectorClock.merge ⟨Key.uuid 0, [(Key.uuid 0, 5)]⟩
        (intMap ((List.range 26).map (fun i => (Key.uuid (i + 1), (1 : Int)))))).2.vector)
      (Key.uuid 1) = false
    ∧ containsK (((EfficientVectorClock.merge ⟨Key.uuid 0, [(Key.uuid 0, 5)]⟩
        (intMap ((List.range 26).map (fun i => (Key.uuid (i + 1), (1 : Int)))))).2.merge
        (intMap ((List.range 26).map (fun i => (Key.uuid (i + 1), (1 : Int)))))).2.vector)
      (Key.uuid 1) = true := by
  refine ⟨by rfl, by rfl⟩

/-- C7 (amended): merge is idempotent provided the merge stays within
capacity so that no pruning fires -- in particular whenever the current
size plus the remote map size is at most MAX_VECTOR_SIZE.  The repeated
merge is then a complete no-op, so the states (not just the maps) agree.
When pruning fires, re-merging the same map re-inserts evicted keys and
can evict different ones, per the counterexample. -/
theorem vc_merge_idempotent_no_prune (vc : EfficientVectorClock) (m : List (Key × Int))
    (h : vc.vector.length + m.length ≤ MAX_VECTOR_SIZE) :
    ((vc.merge (intMap m)).2.merge (intMap m)).2 = (vc.merge (intMap m)).2 := by
  have hlen : (mergeEntries vc.vector (intMap m)).2.length ≤ MAX_VECTOR_SIZE :=
    le_trans (mergeEntries_length_le m vc.vector) h
  rw [merge_intMap_no_prune vc m hlen]
  have hnoop : mergeEntries (mergeEntries vc.vector (intMap m)).2 (intMap m) =
      (true, (mergeEntries vc.vector (intMap m)).2) :=
    mergeEntries_noop m _ (fun p hp =>
      le_lookupD_mergeEntries_of_mem m vc.vector p.1 p.2 hp)
  have hlen2 : (mergeEntries (mergeEntries vc.vector (intMap m)).2 (intMap m)).2.length ≤
      MAX_VECTOR_SIZE := by
    rw [hnoop]
    exact hlen
  rw [merge_intMap_no_prune { vc with vector := (mergeEntries vc.vector (intMap m)).2 } m hlen2]
  rw [hnoop]

/-- Witness for the amended C7: a one-entry merge into a one-entry map
is idempotent. -/
theorem vc_merge_idempotent_no_prune_witness :
    ([(Key.uuid 0, (2 : Int))].length + [(Key.uuid 1, (4 : Int))].length ≤ MAX_VECTOR_SIZE)
    ∧ ((EfficientVectorClock.merge ⟨Key.uuid 0, [(Key.uuid 0, 2)]⟩
          (intMap [(Key.uuid 1, 4)])).2.merge (intMap [(Key.uuid 1, 4)])).2 =
        (EfficientVectorClock.merge ⟨Key.uuid 0, [(Key.uuid 0, 2)]⟩
          (intMap [(Key.uuid 1, 4)])).2 := by
  refine ⟨by decide, ?_⟩
  exact vc_merge_idempotent_no_prune ⟨Key.uuid 0, [(Key.uuid 0, 2)]⟩ [(Key.uuid 1, 4)]
    (by decide)

theorem mergeEntries_comm_map (vec : List (Key × Int)) (A B : List (Key × Int)) (k : Key) :
    containsK (mergeEntries (mergeEntries vec (intMap A)).2 (intMap B)).2 k =
      containsK (mergeEntries (mergeEntries vec (intMap B)).2 (intMap A)).2 k
    ∧ lookupD (mergeEntries (mergeEntries vec (intMap A)).2 (intMap B)).2 k =
      lookupD (mergeEntries (mergeEntries vec (intMap B)).2 (intMap A)).2 k := by
  have cA := containsK_mergeEntries_intMap A vec k
  have cB := containsK_mergeEntries_intMap B vec k
  have lA := lookupD_mergeEntries_intMap A vec k
  have lB := lookupD_mergeEntries_intMap B vec k
  have cAB := containsK_mergeEntries_intMap B (mergeEntries vec (intMap A)).2 k
  have cBA := containsK_mergeEntries_intMap A (mergeEntries vec (intMap B)).2 k
  have lAB := lookupD_mergeEntries_intMap B (mergeEntries vec (intMap A)).2 k
  have lBA := lookupD_mergeEntries_intMap A (mergeEntries vec (intMap B)).2 k
  rw [cAB, cBA, lAB, lBA, cA, cB, lA, lB]
  cases hA : maxOf A k with
  | none =>
    cases hB : maxOf B k with
    | none => exact ⟨rfl, rfl⟩
    | some b => simp
  | some a =>
    cases hB : maxOf B k with
    | none => simp
    | some b =>
      constructor
      · show ((containsK vec k || decide (lookupD vec k < a)) ||
            decide (max (lookupD vec k) a < b)) =
          ((containsK vec k || decide (lookupD vec k < b)) ||
            decide (max (lookupD vec k) b < a))
        cases hc : containsK vec k with
        | true => simp
        | false =>
          simp only [Bool.false_or]
          rw [(Bool.decide_or (lookupD vec k < a) (max (lookupD vec k) a < b)).symm]
          rw [(Bool.decide_or (lookupD vec k < b) (max (lookupD vec k) b < a)).symm]
          exact decide_eq_decide.2 (by omega)
      · show max (max (lookupD vec k) a) b = max (max (lookupD vec k) b) a
        omega

set_option maxRecDepth 8000 in
/-- C8 counterexample: merge order matters once pruning fires.  Merging
the 26-entry all-ones map A and then the singleton B keeps the key of B;
merging B first and then A evicts it (the stable sort puts the earlier
inserted B key first among the value-1 ties). -/
theorem vc_merge_order_counterexample :
    containsK (((EfficientVectorClock.merge ⟨Key.uuid 0, [(Key.uuid 0, 5)]⟩
        (intMap ((List.range 26).map (fun i => (Key.uuid (i + 1), (1 : Int)))))).2.merge
        (intMap [(Key.str 50, 1)])).2.vector) (Key.str 50) = true
    ∧ containsK (((EfficientVectorClock.merge ⟨Key.uuid 0, [(Key.uuid 0, 5)]⟩
        (intMap [(Key.str 50, 1)])).2.merge
        (intMap ((List.range 26).map (fun i => (Key.uuid (i + 1), (1 : Int)))))).2.vector)
      (Key.str 50) = false := by
  refine ⟨by rfl, by rfl⟩

/-- C8 (amended): merge is order-independent as long as no pruning fires
in either order -- in particular whenever the current size plus both
remote map sizes stays within MAX_VECTOR_SIZE.  The two final counter
maps are then equal as dicts (same keys, same values): the merge is an
element-wise maximum.  With pruning, order changes which entries
survive, per the counterexample. -/
theorem vc_merge_comm_no_prune (vc : EfficientVectorClock) (A B : List (Key × Int))
    (h : vc.vector.length + A.length + B.length ≤ MAX_VECTOR_SIZE) :
    sameMap (((vc.merge (intMap A)).2.merge (intMap B)).2.vector)
      (((vc.merge (intMap B)).2.merge (intMap A)).2.vector) := by
  have hA : (mergeEntries vc.vector (intMap A)).2.length ≤ MAX_VECTOR_SIZE := by
    have := mergeEntries_length_le A vc.vector
    omega
  have hB : (mergeEntries vc.vector (intMap B)).2.length ≤ MAX_VECTOR_SIZE := by
    have := mergeEntries_length_le B vc.vector
    omega
  rw [merge_intMap_no_prune vc A hA, merge_intMap_no_prune vc B hB]
  have hAB : (mergeEntries (mergeEntries vc.vector (intMap A)).2 (intMap B)).2.length ≤
      MAX_VECTOR_SIZE := by
    have h1 := mergeEntries_length_le B (mergeEntries vc.vector (intMap A)).2
    have h2 := mergeEntries_length_le A vc.vector
    omega
  have hBA : (mergeEntries (mergeEntries vc.vector (intMap B)).2 (intMap A)).2.length ≤
      MAX_VECTOR_SIZE := by
    have h1 := mergeEntries_length_le A (mergeEntries vc.vector (intMap B)).2
    have h2 := mergeEntries_length_le B vc.vector
    omega
  rw [merge_intMap_no_prune { vc with vector := (mergeEntries vc.vector (intMap A)).2 } B hAB]
  rw [merge_intMap_no_prune { vc with vector := (mergeEntries vc.vector (intMap B)).2 } A hBA]
  intro k
  exact mergeEntries_comm_map vc.vector A B k

/-- Witness for the amended C8: two singleton merges into an empty map
commute. -/
theorem vc_merge_comm_no_prune_witness :
    (([] : List (Key × Int)).length + [(Key.uuid 1, (1 : Int))].length +
        [(Key.uuid 2, (2 : Int))].length ≤ MAX_VECTOR_SIZE)
    ∧ sameMap ((((⟨Key.uuid 0, []⟩ : EfficientVectorClock).merge
          (intMap [(Key.uuid 1, 1)])).2.merge (intMap [(Key.uuid 2, 2)])).2.vector)
        ((((⟨Key.uuid 0, []⟩ : EfficientVectorClock).merge
          (intMap [(Key.uuid 2, 2)])).2.merge (intMap [(Key.uuid 1, 1)])).2.vector) := by
  refine ⟨by decide, ?_⟩
  exact vc_merge_comm_no_prune ⟨Key.uuid 0, []⟩ [(Key.uuid 1, 1)] [(Key.uuid 2, 2)] (by decide)

set_option maxRecDepth 8000 in
/-- C10: remote vector keys are compared and stored verbatim, while only
the hybrid tuple's origin is parsed into a UUID.  (1) A remote entry
keyed by the string form of the owner's UUID merges as a NEW entry next
to the owner's UUID-typed entry.  (2) Under pruning only the key
identical to the owner's UUID object is protected: the string-form twin
of the owner is evicted while the owner survives.  (3) A successful
ingress_packet stores a string-keyed remote entry as-is next to the
UUID-keyed owner entry created by the follow-up increment. -/
theorem ingress_verbatim_vector_keys :
    (mergeEntries [(Key.uuid 0, 1)] (intMap [(Key.str 0, 5)])).2 =
      [(Key.uuid 0, 1), (Key.str 0, 5)]
    ∧ containsK ((EfficientVectorClock.merge
        ⟨Key.uuid 0, (Key.uuid 0, 1) :: (Key.str 0, 1) ::
          (List.range 24).map (fun i => (Key.uuid (i + 1), (1 : Int)))⟩
        (intMap [(Key.uuid 40, 7)])).2.vector) (Key.str 0) = false
    ∧ containsK ((EfficientVectorClock.merge
        ⟨Key.uuid 0, (Key.uuid 0, 1) :: (Key.str 0, 1) ::
          (List.range 24).map (fun i => (Key.uuid (i + 1), (1 : Int)))⟩
        (intMap [(Key.uuid 40, 7)])).2.vector) (Key.uuid 0) = true
    ∧ ((ContextRouter.init 100 (Key.uuid 0)).ingress_packet 100 (100, 0, some 1)
        [(Key.str 3, some 2)]).1 = true
    ∧ ((ContextRouter.init 100 (Key.uuid 0)).ingress_packet 100 (100, 0, some 1)
        [(Key.str 3, some 2)]).2.vc.vector = [(Key.str 3, 2), (Key.uuid 0, 1)] := by
  refine ⟨by rfl, by rfl, by rfl, by rfl, by rfl⟩

/-! ### Eviction characterization -/

theorem removeKeys_cons (vec : List (Key × Int)) (k : Key) (ks : List Key) :
    removeKeys vec (k :: ks) = removeKeys (eraseK vec k) ks := rfl

theorem pruneLoop_eq_removeKeys (owner : Key) (s : List (Key × Int)) :
    ∀ (vec : List (Key × Int)) (p : Nat),
      pruneLoop owner s vec p =
        removeKeys vec
          (((s.filter (fun q => decide (q.1 ≠ owner))).take (PRUNE_CUTOFF - p)).map
            Prod.fst) := by
  induction s with
  | nil =>
    intro vec p
    simp [pruneLoop, removeKeys]
  | cons q rest ih =>
    intro vec p
    obtain ⟨k, v⟩ := q
    by_cases h1 : PRUNE_CUTOFF ≤ p
    · rw [show pruneLoop owner ((k, v) :: rest) vec p = vec from by
        simp [pruneLoop, h1]]
      rw [Nat.sub_eq_zero_of_le h1]
      simp [removeKeys]
    · by_cases h2 : k = owner
      · rw [show pruneLoop owner ((k, v) :: rest) vec p =
            pruneLoop owner rest vec p from by simp [pruneLoop, h1, h2]]
        rw [ih vec p]
        congr 2
        simp [h2]
      · rw [show pruneLoop owner ((k, v) :: rest) vec p =
            pruneLoop owner rest (eraseK vec k) (p + 1) from by
          simp [pruneLoop, h1, h2]]
        rw [ih (eraseK vec k) (p + 1)]
        have hc : (PRUNE_CUTOFF - p) = (PRUNE_CUTOFF - (p + 1)) + 1 := by omega
        rw [show ((k, v) :: rest).filter (fun q => decide (q.1 ≠ owner)) =
            (k, v) :: rest.filter (fun q => decide (q.1 ≠ owner)) from by
          simp [h2]]
        rw [hc, List.take_succ_cons, List.map_cons, removeKeys_cons]

theorem keys_eraseK_subset (l : List (Key × Int)) (k k' : Key)
    (h : k' ∈ (eraseK l k).map Prod.fst) : k' ∈ l.map Prod.fst := by
  induction l with
  | nil => simp [eraseK] at h
  | cons p rest ih =>
    obtain ⟨k0, v0⟩ := p
    by_cases hk : k0 = k
    · rw [show eraseK ((k0, v0) :: rest) k = rest from by simp [eraseK, hk]] at h
      exact List.mem_cons_of_mem _ h
    · rw [show eraseK ((k0, v0) :: rest) k = (k0, v0) :: eraseK rest k from by
        simp [eraseK, hk]] at h
      rcases List.mem_cons.1 h with he | hrest
      · simp [he]
      · exact List.mem_cons_of_mem _ (ih hrest)

theorem keyNodup_eraseK (l : List (Key × Int)) (k : Key) (h : keyNodup l) :
    keyNodup (eraseK l k) := by
  induction l with
  | nil => simpa [eraseK] using h
  | cons p rest ih =>
    obtain ⟨k0, v0⟩ := p
    simp only [keyNodup, List.map_cons, List.nodup_cons] at h
    by_cases hk : k0 = k
    · rw [show eraseK ((k0, v0) :: rest) k = rest from by simp [eraseK, hk]]
      exact h.2
    · rw [show eraseK ((k0, v0) :: rest) k = (k0, v0) :: eraseK rest k from by
        simp [eraseK, hk]]
      simp only [keyNodup, List.map_cons, List.nodup_cons]
      exact ⟨fun hm => h.1 (keys_eraseK_subset rest k k0 hm), ih h.2⟩

theorem containsK_eraseK_self (l : List (Key × Int)) (k : Key) (h : keyNodup l) :
    containsK (eraseK l k) k = false := by
  induction l with
  | nil => simp [eraseK, containsK]
  | cons p rest ih =>
    obtain ⟨k0, v0⟩ := p
    simp only [keyNodup, List.map_cons, List.nodup_cons] at h
    by_cases hk : k0 = k
    · rw [show eraseK ((k0, v0) :: rest) k = rest from by simp [eraseK, hk]]
      subst hk
      cases hc : containsK rest k0 with
      | false => rfl
      | true => exact absurd ((containsK_iff_mem rest k0).1 hc) h.1
    · rw [show eraseK ((k0, v0) :: rest) k = (k0, v0) :: eraseK rest k from by
        simp [eraseK, hk]]
      simp only [containsK, if_neg hk]
      exact ih h.2

theorem removeKeys_length (ks : List Key) :
    ∀ vec : List (Key × Int), ks.Nodup → (∀ k ∈ ks, containsK vec k = true) →
      (removeKeys vec ks).length + ks.length = vec.length := by
  induction ks with
  | nil => intro vec _ _; simp [removeKeys]
  | cons k ks ih =>
    intro vec hnd hall
    simp only [List.nodup_cons] at hnd
    rw [removeKeys_cons]
    have hk : containsK vec k = true := hall k (List.mem_cons_self _ _)
    have hrest : ∀ k' ∈ ks, containsK (eraseK vec k) k' = true := by
      intro k' hk'
      rw [containsK_eraseK_ne vec k k' (fun he => hnd.1 (he ▸ hk'))]
      exact hall k' (List.mem_cons_of_mem _ hk')
    have h1 := ih (eraseK vec k) hnd.2 hrest
    have h2 := length_eraseK_of_contains vec k hk
    simp only [List.length_cons]
    omega

theorem containsK_removeKeys_not_mem (ks : List Key) :
    ∀ (vec : List (Key × Int)) (k' : Key), k' ∉ ks →
      containsK (removeKeys vec ks) k' = containsK vec k' := by
  induction ks with
  | nil => intro vec k' _; rfl
  | cons k ks ih =>
    intro vec k' hk'
    rw [removeKeys_cons]
    have hne : k' ≠ k := fun he => hk' (he ▸ List.mem_cons_self _ _)
    rw [ih (eraseK vec k) k' (fun hm => hk' (List.mem_cons_of_mem _ hm))]
    exact containsK_eraseK_ne vec k k' hne

theorem lookupD_removeKeys_not_mem (ks : List Key) :
    ∀ (vec : List (Key × Int)) (k' : Key), k' ∉ ks →
      lookupD (removeKeys vec ks) k' = lookupD vec k' := by
  induction ks with
  | nil => intro vec k' _; rfl
  | cons k ks ih =>
    intro vec k' hk'
    rw [removeKeys_cons]
    have hne : k' ≠ k := fun he => hk' (he ▸ List.mem_cons_self _ _)
    rw [ih (eraseK vec k) k' (fun hm => hk' (List.mem_cons_of_mem _ hm))]
    exact lookupD_eraseK_ne vec k k' hne

theorem containsK_removeKeys_mem (ks : List Key) :
    ∀ (vec : List (Key × Int)) (k' : Key), keyNodup vec → ks.Nodup → k' ∈ ks →
      containsK (removeKeys vec ks) k' = false := by
  induction ks with
  | nil => intro vec k' _ _ h; simp at h
  | cons k ks ih =>
    intro vec k' hvnd hnd hk'
    simp only [List.nodup_cons] at hnd
    rw [removeKeys_cons]
    rcases List.mem_cons.1 hk' with he | hrest
    · subst he
      rw [containsK_removeKeys_not_mem ks (eraseK vec k') k' hnd.1]
      exact containsK_eraseK_self vec k' hvnd
    · exact ih (eraseK vec k) k' (keyNodup_eraseK vec k hvnd) hnd.2 hrest

theorem filter_ne_of_not_mem_keys (l : List (Key × Int)) (k : Key)
    (h : k ∉ l.map Prod.fst) : l.filter (fun q => decide (q.1 ≠ k)) = l := by
  induction l with
  | nil => rfl
  | cons p rest ih =>
    obtain ⟨k0, c0⟩ := p
    simp only [List.map_cons, List.mem_cons] at h
    push_neg at h
    have hk0 : ¬ (k0 = k) := fun he => h.1 he.symm
    rw [show ((k0, c0) :: rest).filter (fun q => decide (q.1 ≠ k)) =
        (k0, c0) :: rest.filter (fun q => decide (q.1 ≠ k)) from by simp [hk0]]
    rw [ih h.2]

theorem length_le_filter_ne_add_one (v : List (Key × Int)) (owner : Key)
    (hnd : keyNodup v) :
    v.length ≤ (v.filter (fun q => decide (q.1 ≠ owner))).length + 1 := by
  induction v with
  | nil => simp
  | cons p rest ih =>
    obtain ⟨k0, c0⟩ := p
    simp only [keyNodup, List.map_cons, List.nodup_cons] at hnd
    by_cases hk : k0 = owner
    · subst hk
      rw [show ((k0, c0) :: rest).filter (fun q => decide (q.1 ≠ k0)) =
          rest.filter (fun q => decide (q.1 ≠ k0)) from by simp]
      rw [filter_ne_of_not_mem_keys rest k0 hnd.1]
      simp
    · rw [show ((k0, c0) :: rest).filter (fun q => decide (q.1 ≠ owner)) =
          (k0, c0) :: rest.filter (fun q => decide (q.1 ≠ owner)) from by simp [hk]]
      have := ih hnd.2
      simp only [List.length_cons]
      omega

theorem prune_characterization (owner : Key) (v : List (Key × Int))
    (hnd : keyNodup v) (hover : MAX_VECTOR_SIZE < v.length) :
    (pruneLoop owner (List.insertionSort byCnt v) v 0).length + PRUNE_CUTOFF = v.length
    ∧ (∀ k, containsK v k = true →
        containsK (pruneLoop owner (List.insertionSort byCnt v) v 0) k = false →
        k ≠ owner)
    ∧ (∀ k k', containsK v k = true →
        containsK (pruneLoop owner (List.insertionSort byCnt v) v 0) k = false →
        k' ≠ owner →
        containsK (pruneLoop owner (List.insertionSort byCnt v) v 0) k' = true →
        lookupD v k ≤ lookupD v k')
    ∧ PRUNE_CUTOFF ≤ (v.filter (fun q => decide (q.1 ≠ owner))).length := by
  have hperm : List.Perm (List.insertionSort byCnt v) v := List.perm_insertionSort byCnt v
  have hsorted : List.Sorted byCnt (List.insertionSort byCnt v) :=
    List.sorted_insertionSort byCnt v
  rw [pruneLoop_eq_removeKeys owner (List.insertionSort byCnt v) v 0, Nat.sub_zero]
  set s := List.insertionSort byCnt v with hsdef
  set fl := s.filter (fun q => decide (q.1 ≠ owner)) with hfldef
  set rks := (fl.take PRUNE_CUTOFF).map Prod.fst with hrksdef
  have hsnd : (s.map Prod.fst).Nodup := ((hperm.map Prod.fst).symm).nodup hnd
  have hsubfl : List.Sublist fl s := List.filter_sublist s
  have hsubtake : List.Sublist (fl.take PRUNE_CUTOFF) s :=
    (List.take_sublist _ _).trans hsubfl
  have hrksnd : rks.Nodup := hsnd.sublist (hsubtake.map Prod.fst)
  have hall : ∀ k ∈ rks, containsK v k = true := by
    intro k hk
    rcases List.mem_map.1 hk with ⟨q, hq, rfl⟩
    have hqs : q ∈ s := hsubtake.subset hq
    have hqv : q ∈ v := hperm.mem_iff.1 hqs
    exact (containsK_iff_mem v q.1).2 (List.mem_map.2 ⟨q, hqv, rfl⟩)
  have hflv : List.Perm fl (v.filter (fun q => decide (q.1 ≠ owner))) := hperm.filter _
  have h5 : PRUNE_CUTOFF ≤ fl.length := by
    have h1 := length_le_filter_ne_add_one v owner hnd
    have h2 := hflv.length_eq
    simp only [MAX_VECTOR_SIZE] at hover
    simp only [PRUNE_CUTOFF]
    omega
  have hrkslen : rks.length = PRUNE_CUTOFF := by
    rw [hrksdef, List.length_map, List.length_take]
    exact min_eq_left h5
  have hknotin : ∀ k, containsK v k = true →
      containsK (removeKeys v rks) k = false → k ∈ rks := by
    intro k hkv hkres
    by_contra hmem
    rw [containsK_removeKeys_not_mem rks v k hmem, hkv] at hkres
    exact Bool.noConfusion hkres
  refine ⟨?_, ?_, ?_, ?_⟩
  · have := removeKeys_length rks v hrksnd hall
    omega
  · intro k hkv hkres
    rcases List.mem_map.1 (hknotin k hkv hkres) with ⟨q, hq, rfl⟩
    have hqfl : q ∈ fl := (List.take_sublist _ _).subset hq
    have := (List.mem_filter.1 hqfl).2
    simpa using this
  · intro k k' hkv hkres hk'owner hk'res
    rcases List.mem_map.1 (hknotin k hkv hkres) with ⟨q, hq, rfl⟩
    have hk'mem : k' ∉ rks := by
      intro hmem
      rw [containsK_removeKeys_mem rks v k' hnd hrksnd hmem] at hk'res
      exact Bool.noConfusion hk'res
    have hk'v : containsK v k' = true := by
      rw [containsK_removeKeys_not_mem rks v k' hk'mem] at hk'res
      exact hk'res
    have he'v : (k', lookupD v k') ∈ v := mem_entry_of_containsK v k' hk'v
    have he's : (k', lookupD v k') ∈ s := hperm.mem_iff.2 he'v
    have he'fl : (k', lookupD v k') ∈ fl :=
      List.mem_filter.2 ⟨he's, by simpa using hk'owner⟩
    have he'drop : (k', lookupD v k') ∈ fl.drop PRUNE_CUTOFF := by
      have happ := List.take_append_drop PRUNE_CUTOFF fl
      rcases List.mem_append.1 (by rw [happ]; exact he'fl) with h1 | h1
      · exact absurd (List.mem_map.2 ⟨_, h1, rfl⟩) hk'mem
      · exact h1
    have hflsorted : List.Pairwise byCnt fl := List.Pairwise.sublist hsubfl hsorted
    have hrel : ∀ x ∈ fl.take PRUNE_CUTOFF, ∀ y ∈ fl.drop PRUNE_CUTOFF, byCnt x y := by
      have hpw : List.Pairwise byCnt (fl.take PRUNE_CUTOFF ++ fl.drop PRUNE_CUTOFF) := by
        rw [List.take_append_drop]
        exact hflsorted
      exact (List.pairwise_append.1 hpw).2.2
    have hq_le : byCnt q (k', lookupD v k') := hrel q hq _ he'drop
    have hqv : q ∈ v := hperm.mem_iff.1 (hsubtake.subset hq)
    have hlq : lookupD v q.1 = q.2 := by
      obtain ⟨qk, qv⟩ := q
      exact lookupD_eq_of_mem_nodup v qk qv hqv hnd
    rw [hlq]
    exact hq_le
  · have h2 := hflv.length_eq
    omega

/-- C6: whenever a merge leaves the counter map with more than
MAX_VECTOR_SIZE entries, the eviction pass runs and removes exactly
min(PRUNE_CUTOFF, number of non-owner entries) entries -- which is
exactly PRUNE_CUTOFF = 5 there, since a map of more than 25 entries with
unique keys has at least 25 non-owner entries;  every removed entry is a
non-owner entry whose counter is at most the counter of every surviving
non-owner entry;  and the owner's entry, when present before the merge,
is still present afterwards. -/
theorem vc_merge_prune_exact (vc : EfficientVectorClock) (m : List (Key × Int))
    (hnd : keyNodup vc.vector)
    (hover : MAX_VECTOR_SIZE < (mergeEntries vc.vector (intMap m)).2.length) :
    (vc.merge (intMap m)).2.vector.length + PRUNE_CUTOFF =
        (mergeEntries vc.vector (intMap m)).2.length
    ∧ min PRUNE_CUTOFF
        (((mergeEntries vc.vector (intMap m)).2.filter
          (fun q => decide (q.1 ≠ vc.local_node))).length) = PRUNE_CUTOFF
    ∧ (containsK vc.vector vc.local_node = true →
        containsK (vc.merge (intMap m)).2.vector vc.local_node = true)
    ∧ (∀ k, containsK (mergeEntries vc.vector (intMap m)).2 k = true →
        containsK (vc.merge (intMap m)).2.vector k = false → k ≠ vc.local_node)
    ∧ (∀ k k', containsK (mergeEntries vc.vector (intMap m)).2 k = true →
        containsK (vc.merge (intMap m)).2.vector k = false →
        k' ≠ vc.local_node →
        containsK (vc.merge (intMap m)).2.vector k' = true →
        lookupD (mergeEntries vc.vector (intMap m)).2 k ≤
          lookupD (mergeEntries vc.vector (intMap m)).2 k') := by
  have hnd' : keyNodup (mergeEntries vc.vector (intMap m)).2 :=
    keyNodup_mergeEntries (intMap m) vc.vector hnd
  have hchar := prune_characterization vc.local_node
    (mergeEntries vc.vector (intMap m)).2 hnd' hover
  have hvec : (vc.merge (intMap m)).2.vector =
      pruneLoop vc.local_node
        (List.insertionSort byCnt (mergeEntries vc.vector (intMap m)).2)
        (mergeEntries vc.vector (intMap m)).2 0 := by
    rw [merge_intMap_vector, if_pos hover]
  rw [hvec]
  refine ⟨hchar.1, min_eq_left hchar.2.2.2, ?_, hchar.2.1, hchar.2.2.1⟩
  intro h
  rw [containsK_pruneLoop_owner]
  exact containsK_mergeEntries_mono (intMap m) vc.vector vc.local_node h

instance (l : List (Key × Int)) : Decidable (keyNodup l) :=
  inferInstanceAs (Decidable ((l.map Prod.fst).Nodup))

set_option maxRecDepth 8000 in
/-- Witness for C6: merging 31 distinct entries into an empty clock
leaves 31 entries before eviction and 26 = 31 - 5 afterwards. -/
theorem vc_merge_prune_exact_witness :
    keyNodup ([] : List (Key × Int))
    ∧ MAX_VECTOR_SIZE < (mergeEntries ([] : List (Key × Int))
        (intMap ((List.range 31).map (fun i => (Key.uuid (i + 1), (i : Int) + 1))))).2.length
    ∧ ((⟨Key.uuid 0, []⟩ : EfficientVectorClock).merge
        (intMap ((List.range 31).map
          (fun i => (Key.uuid (i + 1), (i : Int) + 1))))).2.vector.length + PRUNE_CUTOFF =
      (mergeEntries ([] : List (Key × Int))
        (intMap ((List.range 31).map (fun i => (Key.uuid (i + 1), (i : Int) + 1))))).2.length := by
  have hnd : keyNodup ([] : List (Key × Int)) := by simp [keyNodup]
  have hlen : (mergeEntries ([] : List (Key × Int))
      (intMap ((List.range 31).map
        (fun i => (Key.uuid (i + 1), (i : Int) + 1))))).2.length = 31 := by rfl
  have hover : MAX_VECTOR_SIZE < (mergeEntries ([] : List (Key × Int))
      (intMap ((List.range 31).map
        (fun i => (Key.uuid (i + 1), (i : Int) + 1))))).2.length := by
    rw [hlen]
    decide
  exact ⟨hnd, hover, (vc_merge_prune_exact ⟨Key.uuid 0, []⟩
    ((List.range 31).map (fun i => (Key.uuid (i + 1), (i : Int) + 1))) hnd hover).1⟩
